import Mathlib

/-!
Verification of the jrnl entry model and export pipeline
(`jrnl/Entry.py`, `jrnl/exporters.py`).

Text is modelled as `List Char` (`Str`).  Python behaviours used by the
code (regex scanning, `str.rstrip`, `str.splitlines`, `textwrap.fill`,
`strftime`) are embedded as executable Lean functions over `Str`.
ASCII-level models are used for Unicode-aware predicates (`\w`, `\s`,
`str.lower`): word characters are modelled by `Char.isAlphanum`/underscore
and whitespace by `Char.isWhitespace`.
-/

abbrev Str := List Char

/-- Right-strip: Python `s.rstrip(chars)` — removes trailing characters
belonging to `strip`. -/
def rstripChars (strip : Str) (s : Str) : Str :=
  ((s.reverse).dropWhile (fun c => strip.contains c)).reverse

/-- Python `str.splitlines` restricted to `'\n'` separators: no trailing
empty line after a final newline, empty string gives `[]`. -/
def splitlines (s : Str) : List Str :=
  match s with
  | [] => []
  | a :: b =>
    let line := (a :: b).takeWhile (fun c => !(c == '\n'))
    match h2 : (a :: b).dropWhile (fun c => !(c == '\n')) with
    | [] => [line]
    | _ :: rest2 => line :: splitlines rest2
termination_by s.length
decreasing_by
  have hle : ((a :: b).dropWhile (fun c => !(c == '\n'))).length ≤ (a :: b).length :=
    (List.dropWhile_suffix _).sublist.length_le
  rw [h2] at hle
  simp at hle ⊢
  omega

/-- Full month names for `strftime`'s `%B` directive. -/
def monthName (m : Nat) : Str :=
  match m with
  | 1 => ("January").toList
  | 2 => ("February").toList
  | 3 => ("March").toList
  | 4 => ("April").toList
  | 5 => ("May").toList
  | 6 => ("June").toList
  | 7 => ("July").toList
  | 8 => ("August").toList
  | 9 => ("September").toList
  | 10 => ("October").toList
  | 11 => ("November").toList
  | 12 => ("December").toList
  | _ => []

/-- Decimal digits of a natural number, zero-padded on the left to `k`. -/
def padNum (k n : Nat) : Str :=
  let s := (Nat.repr n).toList
  List.replicate (k - s.length) '0' ++ s

/-- Timestamp of an entry (`datetime`): calendar date plus time of day. -/
structure Date where
  year : Nat
  month : Nat
  day : Nat
  hour : Nat
  minute : Nat
deriving DecidableEq

/-- Model of `datetime.strftime` for the directives the code uses
(`%Y`, `%m`, `%d`, `%H`, `%M`, `%B`, `%%`); other characters pass
through unchanged and an unknown directive is kept verbatim. -/
def strftime (d : Date) : Str → Str
  | [] => []
  | '%' :: c :: rest =>
    (match c with
     | 'Y' => padNum 4 d.year
     | 'm' => padNum 2 d.month
     | 'd' => padNum 2 d.day
     | 'H' => padNum 2 d.hour
     | 'M' => padNum 2 d.minute
     | 'B' => monthName d.month
     | '%' => ['%']
     | c => ['%', c]) ++ strftime d rest
  | c :: rest => c :: strftime d rest

/-! ## Tag extraction (`Entry.tag_regex`, `Entry.parse_tags`) -/

/-- The regex character class `[-+*#/\w]` (ASCII model of `\w`). -/
def isTagBodyChar (c : Char) : Bool :=
  c.isAlphanum || c == '_' || c == '-' || c == '+' || c == '*' || c == '#' || c == '/'

/-- `re.findall` for the pattern `\s([S][-+*#/\w]+)`: scan left to right,
on a match capture the group (symbol plus maximal run of tag-body
characters) and resume after the match; on failure advance one character. -/
def findall (S : Str) : Str → List Str
  | [] => []
  | c :: rest =>
    if c.isWhitespace then
      match hr : rest with
      | [] => []
      | d :: rest2 =>
        if S.contains d then
          let tok := rest2.takeWhile isTagBodyChar
          if tok.isEmpty then findall S rest
          else (d :: tok) :: findall S (rest2.dropWhile isTagBodyChar)
        else findall S rest
    else findall S rest
termination_by s => s.length
decreasing_by
  · subst h2
    simp
  · have : (rest2.dropWhile isTagBodyChar).length ≤ rest2.length :=
      (List.dropWhile_suffix _).sublist.length_le
    subst h2
    simp
    omega
  · subst h2
    simp
  · simp

/-- `Entry.get_fulltext`: `(" " + " ".join([title, body])).lower()`. -/
def get_fulltext (title body : Str) : Str :=
  (' ' :: (title ++ ' ' :: body)).map Char.toLower

/-- `Entry.parse_tags`: run the tag regex over the lower-cased fulltext. -/
def parse_tags (S title body : Str) : List Str :=
  findall S (get_fulltext title body)

/-- Declarative reading of the claim: walk the (space-prepended) search
text one position at a time remembering the previous character; a
position yields its token — the symbol followed by the maximal nonempty
run of tag-body characters — exactly when the previous character is
whitespace and the position holds a prefix symbol. -/
def specAux (S : Str) (prev : Char) : Str → List Str
  | [] => []
  | c :: rest =>
    let tok := rest.takeWhile isTagBodyChar
    if prev.isWhitespace && S.contains c && !tok.isEmpty then
      (c :: tok) :: specAux S c rest
    else specAux S c rest

/-- All qualifying tag tokens of a search text, in left-to-right order
(the first character can never itself be token start: it has no
predecessor). -/
def tagTokensSpec (S : Str) : Str → List Str
  | [] => []
  | c :: rest => specAux S c rest

theorem white_not_tagBody (c : Char) (h : c.isWhitespace = true) :
    isTagBodyChar c = false := by
  simp [Char.isWhitespace] at h
  rcases h with ((h | h) | h) | h <;> subst h <;> decide

theorem tagBody_not_white (c : Char) (h : isTagBodyChar c = true) :
    c.isWhitespace = false := by
  cases hw : c.isWhitespace with
  | false => rfl
  | true => rw [white_not_tagBody c hw] at h; exact absurd h (by simp)

theorem specAux_nonwhite (S : Str) (p q : Char) (hp : p.isWhitespace = false)
    (hq : q.isWhitespace = false) (t : Str) : specAux S p t = specAux S q t := by
  cases t with
  | nil => rfl
  | cons c rest => simp [specAux, hp, hq]

theorem specAux_append_nonwhite (S : Str) (u : Str)
    (hu : ∀ x ∈ u, x.isWhitespace = false) (p : Char) (hp : p.isWhitespace = false)
    (v : Str) : specAux S p (u ++ v) = specAux S p v := by
  induction u generalizing p with
  | nil => rfl
  | cons x u ih =>
    have hx : x.isWhitespace = false := hu x (by simp)
    have h1 : specAux S p (x :: (u ++ v)) = specAux S x (u ++ v) := by
      simp [specAux, hp]
    rw [List.cons_append, h1, ih (fun y hy => hu y (by simp [hy])) x hx,
      specAux_nonwhite S x p hx hp]

theorem specAux_eq_tagTokensSpec (S : Str) (c : Char) (hc : c.isWhitespace = false)
    (t : Str) : specAux S c t = tagTokensSpec S t := by
  cases t with
  | nil => rfl
  | cons d r => simp [specAux, tagTokensSpec, hc]

theorem contains_mem {S : Str} {d : Char} (h : S.contains d = true) : d ∈ S := by
  simpa using h

theorem findall_eq_aux (S : Str) (hS : ∀ s ∈ S, s.isWhitespace = false) :
    ∀ (n : Nat) (t : Str), t.length ≤ n → findall S t = tagTokensSpec S t := by
  intro n
  induction n with
  | zero =>
    intro t ht
    have h0 : t = [] := by cases t with
      | nil => rfl
      | cons a b => simp at ht
    subst h0; simp [findall, tagTokensSpec]
  | succ n ih =>
    intro t ht
    match t with
    | [] => simp [findall, tagTokensSpec]
    | c :: rest =>
      show findall S (c :: rest) = specAux S c rest
      by_cases hw : c.isWhitespace
      · cases rest with
        | nil => simp [findall, hw, specAux]
        | cons d rest2 =>
          have hlen : (d :: rest2).length ≤ n := by simp at ht ⊢; omega
          by_cases hd : S.contains d
          · have hdm : d ∈ S := contains_mem hd
            have hdw : d.isWhitespace = false := hS d hdm
            by_cases htok : (rest2.takeWhile isTagBodyChar).isEmpty
            · have hL : findall S (c :: d :: rest2) = findall S (d :: rest2) := by
                simp [findall, hw, hd, hdm, htok]
              rw [hL, ih (d :: rest2) hlen]
              simp [tagTokensSpec, specAux, hw, hd, hdm, htok]
            · have hL : findall S (c :: d :: rest2) =
                  (d :: rest2.takeWhile isTagBodyChar) ::
                    findall S (rest2.dropWhile isTagBodyChar) := by
                simp [findall, hw, hd, hdm, htok]
              have hR : specAux S c (d :: rest2) =
                  (d :: rest2.takeWhile isTagBodyChar) :: specAux S d rest2 := by
                simp [specAux, hw, hd, hdm, htok]
              have hsplit : rest2 =
                  rest2.takeWhile isTagBodyChar ++ rest2.dropWhile isTagBodyChar :=
                (List.takeWhile_append_dropWhile isTagBodyChar rest2).symm
              have htw : ∀ x ∈ rest2.takeWhile isTagBodyChar, x.isWhitespace = false :=
                fun x hx => tagBody_not_white x (List.mem_takeWhile_imp hx)
              have hdrop : (rest2.dropWhile isTagBodyChar).length ≤ n :=
                le_trans (List.dropWhile_suffix _).sublist.length_le
                  (by simp at hlen ⊢; omega)
              rw [hL, hR, ih _ hdrop]
              congr 1
              symm
              calc specAux S d rest2
                  = specAux S d (rest2.takeWhile isTagBodyChar ++
                      rest2.dropWhile isTagBodyChar) := by rw [← hsplit]
                _ = specAux S d (rest2.dropWhile isTagBodyChar) :=
                    specAux_append_nonwhite S _ htw d hdw _
                _ = tagTokensSpec S (rest2.dropWhile isTagBodyChar) :=
                    specAux_eq_tagTokensSpec S d hdw _
          · have hdm : d ∉ S := fun hmem => hd (by simpa using hmem)
            have hL : findall S (c :: d :: rest2) = findall S (d :: rest2) := by
              simp [findall, hw, hd, hdm]
            rw [hL, ih (d :: rest2) hlen]
            simp [tagTokensSpec, specAux, hw, hd, hdm]
      · have hwf : c.isWhitespace = false := by simpa using hw
        cases rest with
        | nil => simp [findall, hwf, specAux]
        | cons d r =>
          have hL : findall S (c :: d :: r) = findall S (d :: r) := by
            simp [findall, hwf]
          have hlen2 : (d :: r).length ≤ n := by simp at ht ⊢; omega
          rw [hL, ih _ hlen2, specAux_eq_tagTokensSpec S c hwf]

/-- The scan of the code's tag regex agrees with the declarative token
characterisation, for any prefix-symbol set free of whitespace. -/
theorem findall_eq_tagTokensSpec (S : Str)
    (hS : ∀ s ∈ S, s.isWhitespace = false) (t : Str) :
    findall S t = tagTokensSpec S t :=
  findall_eq_aux S hS t.length t le_rfl

/-! ## Data model (`Todo`, `Entry`, journal configuration) -/

/-- Modelled from the spec: the external `Todo` collaborator is opaque,
exposing a completion flag, a display-line conversion (`to_item_format`)
and a structured-dictionary conversion (`to_dict`), both carried here as
data. -/
structure Todo where
  is_complete : Bool
  item_line : Str
  dict_view : Str
deriving DecidableEq

/-- `Todo.to_dict`: the todo's structured view (opaque payload). -/
def Todo.to_dict (t : Todo) : Str := t.dict_view

/-- `Todo.to_item_format`: the todo's single display line. -/
def Todo.to_item_format (t : Todo) : Str := t.item_line

/-- The journal configuration keys the entry/export code reads
(`tagsymbols`, `timeformat`, `linewrap`; `linewrap = 0` means falsy). -/
structure Config where
  tagsymbols : Str
  timeformat : Str
  linewrap : Nat
deriving DecidableEq

/-- An `Entry` after construction: `date`, `title`, `body`, `starred`,
plus the derived `tags`/`todos` (set by `parse_data` at construction,
possibly stale after external mutation, hence carried as plain data). -/
structure Entry where
  date : Date
  title : Str
  body : Str
  starred : Bool
  tags : List Str
  todos : List Todo
deriving DecidableEq

/-- An ordered journal: its entries, its config, and the external
`pprint()` capability. `pprint_text` is modelled from the spec: the
journal's own full pretty-print is an external collaborator, carried as
the string it would produce. -/
structure Journal where
  entries : List Entry
  config : Config
  pprint_text : Str

/-- The character set of `rstrip("\n ")`. -/
def nlsp : Str := ['\n', ' ']

/-- `Entry.__unicode__`: the canonical text written back to the journal
file — `date title[ *][\n body]\n` with title/body right-stripped. -/
def unicode_text (cfg : Config) (e : Entry) : Str :=
  let date_str := strftime e.date cfg.timeformat
  let title0 := date_str ++ ' ' :: rstripChars nlsp e.title
  let title := if e.starred then title0 ++ (" *").toList else title0
  let body := rstripChars nlsp e.body
  title ++ (if body.isEmpty then [] else ['\n']) ++ body ++ ['\n']

/-- `Entry.to_md`: the entry's Markdown block
`"### <date>, <title> <body> \n"`, the body prefixed by a blank line
when non-empty. -/
def Entry.to_md (cfg : Config) (e : Entry) : Str :=
  let date_str := strftime e.date cfg.timeformat
  let body := (if e.body.isEmpty then [] else ('\n' :: ['\n'])) ++ e.body
  ("### ").toList ++ date_str ++ (", ").toList ++ e.title ++ ' ' :: body
    ++ ' ' :: ['\n']

/-- `Entry.to_dict`: the structured view of an entry. -/
structure EntryDict where
  title : Str
  body : Str
  date : Str
  time : Str
  todos : List Str
  starred : Bool
deriving DecidableEq

def Entry.to_dict (e : Entry) : EntryDict :=
  { title := e.title
    body := e.body
    date := strftime e.date (("%Y-%m-%d").toList)
    time := strftime e.date (("%H:%M").toList)
    todos := e.todos.map Todo.to_dict
    starred := e.starred }

/-- An entry's structured view as the JSON export carries it: the
`to_dict` fields plus the sequential `id`. -/
structure EntryDictId where
  dict : EntryDict
  id : Nat
deriving DecidableEq

/-! ## `textwrap.fill` model

`textwrap.fill(text, width, initial_indent=ind, subsequent_indent=ind,
drop_whitespace=dw)` with the defaults the code relies on
(`expand_tabs=True`, `replace_whitespace=True`, `break_long_words=True`).
The chunk splitter is modelled as maximal whitespace/non-whitespace runs
(the stdlib additionally splits hyphenated compounds; nothing the claims
touch depends on that).  For a width smaller than the indent the model
breaks one character per line, resolving the stdlib's degenerate
behaviour there. -/

/-- `str.expandtabs()`: tabs to 8-column stops, newlines reset. -/
def expandTabsAux (col : Nat) : Str → Str
  | [] => []
  | c :: cs =>
    if c == '\t' then
      List.replicate (8 - col % 8) ' ' ++ expandTabsAux (col + (8 - col % 8)) cs
    else if c == '\n' || c == '\r' then c :: expandTabsAux 0 cs
    else c :: expandTabsAux (col + 1) cs

/-- `replace_whitespace`: every whitespace character becomes a space. -/
def replaceWs (s : Str) : Str := s.map (fun c => if c.isWhitespace then ' ' else c)

def normalizeText (s : Str) : Str := replaceWs (expandTabsAux 0 s)

def isWsChunk (c : Str) : Bool := c.all Char.isWhitespace

/-- Maximal runs of whitespace / non-whitespace characters. -/
def splitChunks : Str → List Str
  | [] => []
  | c :: cs =>
    (c :: cs.takeWhile (fun d => d.isWhitespace == c.isWhitespace)) ::
      splitChunks (cs.dropWhile (fun d => d.isWhitespace == c.isWhitespace))
termination_by s => s.length
decreasing_by
  simp only [List.length_cons]
  exact Nat.lt_succ_of_le (List.dropWhile_suffix _).sublist.length_le

/-- Greedily take chunks while the running length stays within `avail`
(the inner `while` of `_wrap_chunks`). -/
def takeChunks (avail : Nat) (acc : Nat) : List Str → List Str × List Str
  | [] => ([], [])
  | c :: cs =>
    if acc + c.length ≤ avail then
      let p := takeChunks avail (acc + c.length) cs
      (c :: p.1, p.2)
    else ([], c :: cs)

/-- Drop the line's single trailing whitespace chunk (`drop_whitespace`). -/
def dropTrailingWs : List Str → List Str
  | [] => []
  | [c] => if isWsChunk c then [] else [c]
  | c :: cs => c :: dropTrailingWs cs

def chunkLen (l : List Str) : Nat := (l.map List.length).sum

theorem takeChunks_append (avail : Nat) (acc : Nat) (l : List Str) :
    (takeChunks avail acc l).1 ++ (takeChunks avail acc l).2 = l := by
  induction l generalizing acc with
  | nil => rfl
  | cons c cs ih =>
    by_cases h : acc + c.length ≤ avail
    · simp [takeChunks, h, ih]
    · simp [takeChunks, h]

theorem chunkLen_append (a b : List Str) :
    chunkLen (a ++ b) = chunkLen a + chunkLen b := by
  simp [chunkLen]

/-- One pass of `_wrap_chunks`, producing the line contents (indent not
yet attached).  `first` is true while no line has been emitted: the
leading-whitespace drop of `drop_whitespace` only applies once lines
exist.  A chunk longer than `avail` is broken (`break_long_words`). -/
def wrapAux (dropWs : Bool) (avail : Nat) : Bool → List Str → List Str
  | _, [] => []
  | first, c :: cs =>
    if dropWs && !first && isWsChunk c then
      wrapAux dropWs avail first cs
    else if c.length ≤ avail then
      let p := takeChunks avail c.length cs
      let L := if dropWs then dropTrailingWs (c :: p.1) else c :: p.1
      (if L.isEmpty then [] else [L.flatten]) ++ wrapAux dropWs avail false p.2
    else
      let k := max 1 avail
      (if dropWs && isWsChunk (c.take k) then [] else [c.take k]) ++
        wrapAux dropWs avail false
          (if (c.drop k).isEmpty then cs else c.drop k :: cs)
termination_by _ chunks => chunkLen chunks + chunks.length
decreasing_by
  · simp [chunkLen]
    omega
  · have hap := takeChunks_append avail c.length cs
    have h1 : chunkLen ((takeChunks avail c.length cs).1)
        + chunkLen ((takeChunks avail c.length cs).2) = chunkLen cs := by
      rw [← chunkLen_append, hap]
    have h2 : ((takeChunks avail c.length cs).1).length
        + ((takeChunks avail c.length cs).2).length = cs.length := by
      rw [← List.length_append, hap]
    simp [chunkLen] at h1 h2 ⊢
    omega
  · rename_i h
    split
    · simp [chunkLen]
      omega
    · rename_i hne
      have hk : 0 < max 1 avail := by omega
      have hc : ¬(c.length ≤ avail) := h
      simp [chunkLen]
      omega

/-- The list of output lines of `textwrap.fill` (each line is the indent
followed by its content). -/
def fillLines (w : Nat) (ind : Str) (dropWs : Bool) (text : Str) : List Str :=
  (wrapAux dropWs (w - ind.length) true (splitChunks (normalizeText text))).map
    (fun l => ind ++ l)

/-- `textwrap.fill`: the wrapped lines joined by newlines. -/
def fill (w : Nat) (ind : Str) (dropWs : Bool) (text : Str) : Str :=
  List.intercalate ['\n'] (fillLines w ind dropWs text)

/-- The `title` local of `Entry.pprint`: wrapped when not short and
`linewrap` is truthy, otherwise the plain right-stripped title line. -/
def pprint_title (cfg : Config) (e : Entry) (short : Bool) : Str :=
  let date_str := strftime e.date cfg.timeformat
  if !short && !(cfg.linewrap == 0) then
    fill cfg.linewrap [] true (date_str ++ ' ' :: e.title)
  else date_str ++ ' ' :: rstripChars nlsp e.title

/-- The `body` local of `Entry.pprint`: each line of the right-stripped
body wrapped individually with a `"| "` indent and
`drop_whitespace=False`; an empty line gets a space appended first. -/
def pprint_body (cfg : Config) (e : Entry) (short : Bool) : Str :=
  if !short && !(cfg.linewrap == 0) then
    List.intercalate ['\n']
      ((splitlines (rstripChars nlsp e.body)).map
        (fun line => fill cfg.linewrap (("| ").toList) false
          (if line.isEmpty then line ++ [' '] else line)))
  else rstripChars nlsp e.body

/-- The `has_body` local of `Entry.pprint`: the raw body is longer than
20 characters or holds a character besides space and newline. -/
def has_body (e : Entry) : Bool :=
  decide (20 < e.body.length) || !(e.body.all (fun c => c == ' ' || c == '\n'))

/-- `Entry.pprint`: pretty-printed entry.  With `short = true` only the
title line is returned; otherwise title, separator-plus-body when
`has_body`, and a trailing newline. -/
def pprint (cfg : Config) (e : Entry) (short : Bool) : Str :=
  if short then pprint_title cfg e short
  else pprint_title cfg e short
    ++ (if has_body e then '\n' :: pprint_body cfg e short else []) ++ ['\n']

/-! ## Exporters (`jrnl/exporters.py`) -/

/-- `get_tags_count`: flatten each entry's deduplicated tag set, then the
set of `(count, tag)` pairs (the Python `set` is modelled by `dedup`). -/
def get_tags_count (j : Journal) : List (Nat × Str) :=
  let tags := j.entries.flatMap (fun e => e.tags.dedup)
  (tags.map (fun t => (tags.count t, t))).dedup

/-- `"{0:20}"`: left-justify a tag to width 20. -/
def padTag (t : Str) : Str := t ++ List.replicate (20 - t.length) ' '

/-- Python string `<`: lexicographic comparison by code point. -/
def strLtB : Str → Str → Bool
  | _, [] => false
  | [], _ :: _ => true
  | a :: as, b :: bs => decide (a < b) || (a == b && strLtB as bs)

/-- Python tuple `<` on `(count, tag)` pairs. -/
def pairLtB (x y : Nat × Str) : Bool :=
  decide (x.1 < y.1) || (x.1 == y.1 && strLtB x.2 y.2)

/-- `min` of a nonempty collection of `(count, tag)` pairs. -/
def minPair (x : Nat × Str) (l : List (Nat × Str)) : Nat × Str :=
  l.foldl (fun m y => if pairLtB y m then y else m) x

def insDesc (x : Nat × Str) : List (Nat × Str) → List (Nat × Str)
  | [] => [x]
  | y :: ys => if pairLtB y x then x :: y :: ys else y :: insDesc x ys

/-- `sorted(..., reverse=True)`: descending lexicographic sort. -/
def sortDesc (l : List (Nat × Str)) : List (Nat × Str) := l.foldr insDesc []

/-- `to_tag_list`: the human-readable tag listing with its empty-journal
sentinel and the defensive `min == 0` filter branch. -/
def to_tag_list (j : Journal) : Str :=
  let tag_counts := get_tags_count j
  match tag_counts with
  | [] => ("[No tags found in journal.]").toList
  | x :: xs =>
    let pre : Str :=
      if (minPair x xs).1 == 0 then
        ("[Removed tags that appear only once.]").toList ++ ['\n']
      else []
    let tc : List (Nat × Str) :=
      if (minPair x xs).1 == 0 then (x :: xs).filter (fun p => decide (1 < p.1))
      else x :: xs
    pre ++ List.intercalate ['\n']
      ((sortDesc tc).map (fun p => padTag p.2 ++ (" : ").toList ++ (Nat.repr p.1).toList))

/-- `get_todos`: all todos of all entries, in journal order. -/
def get_todos (j : Journal) : List Todo := j.entries.flatMap (fun e => e.todos)

/-- A headed section: the text underlined above and below with `=`. -/
def appendable_header (t : Str) : Str :=
  let sep := List.replicate t.length '='
  sep ++ '\n' :: (t ++ '\n' :: (sep ++ ['\n']))

/-- `to_todo_list`: the pending/completed listing with its sentinel. -/
def to_todo_list (j : Journal) : Str :=
  let todos := get_todos j
  if todos.isEmpty then ("[No todos found in journal.]").toList
  else
    let pending := todos.filter (fun t => ! t.is_complete)
    let completed := todos.filter (fun t => t.is_complete)
    appendable_header (("Pending").toList)
      ++ List.intercalate ['\n'] (pending.map Todo.to_item_format)
      ++ ('\n' :: ['\n'])
      ++ appendable_header (("Completed").toList)
      ++ List.intercalate ['\n'] (completed.map Todo.to_item_format)

/-- The JSON export object (`to_json` builds exactly these three keys;
`json.dumps` serialisation itself is not modelled — the claims are about
the object's content). -/
structure JsonExport where
  tags : List (Str × Nat)
  todos : List Str
  entries : List EntryDictId
deriving DecidableEq

/-- The `entry_id` loop of `to_json`. -/
def entriesWithIds (n : Nat) : List Entry → List EntryDictId
  | [] => []
  | e :: es => ⟨Entry.to_dict e, n⟩ :: entriesWithIds (n + 1) es

/-- `to_json`: tags mapping (pairs reversed from `get_tags_count`),
todo dicts, and entry dicts with sequential ids starting at 1. -/
def to_json (j : Journal) : JsonExport :=
  { tags := (get_tags_count j).map (fun p => (p.2, p.1))
    todos := (get_todos j).map Todo.to_dict
    entries := entriesWithIds 1 j.entries }

/-- The item list built by `to_md`'s loop: year/month headings are
emitted when the entry's year/month differs from the tracked value
(initially `-1`), then the entry's Markdown block. -/
def mdItems (cfg : Config) (year month : Int) : List Entry → List Str
  | [] => []
  | e :: es =>
    let ys : List Str :=
      if (e.date.year : Int) == year then []
      else [(Nat.repr e.date.year).toList,
        List.replicate (Nat.repr e.date.year).length '=' ++ ['\n']]
    let year2 := if (e.date.year : Int) == year then year else (e.date.year : Int)
    let ms : List Str :=
      if (e.date.month : Int) == month then []
      else [strftime e.date (("%B").toList),
        List.replicate (strftime e.date (("%B").toList)).length '-' ++ ['\n']]
    let month2 := if (e.date.month : Int) == month then month else (e.date.month : Int)
    ys ++ ms ++ [Entry.to_md cfg e] ++ mdItems cfg year2 month2 es

/-- `to_md` (journal level): the items joined by single newlines. -/
def to_md (j : Journal) : Str :=
  List.intercalate ['\n'] (mdItems j.config (-1) (-1) j.entries)

/-- The claim's reading of the Markdown export: walking the entries in
journal order while remembering the previous entry's year and month
numbers (none before the first entry), a year heading is emitted exactly
when the entry's year differs from the previous entry's, and a month
heading exactly when its month number differs from the previous
entry's; each entry's block follows its headings. -/
def mdItemsSpec (cfg : Config) : Option (Nat × Nat) → List Entry → List Str
  | _, [] => []
  | prev, e :: es =>
    let yh : List Str := [(Nat.repr e.date.year).toList,
      List.replicate (Nat.repr e.date.year).length '=' ++ ['\n']]
    let mh : List Str := [strftime e.date (("%B").toList),
      List.replicate (strftime e.date (("%B").toList)).length '-' ++ ['\n']]
    (match prev with
     | none => yh ++ mh
     | some (py, pm) =>
        (if e.date.year == py then [] else yh)
          ++ (if e.date.month == pm then [] else mh))
      ++ [Entry.to_md cfg e]
      ++ mdItemsSpec cfg (some (e.date.year, e.date.month)) es

/-- The Markdown export as the claim describes it. -/
def to_md_spec (j : Journal) : Str :=
  List.intercalate ['\n'] (mdItemsSpec j.config none j.entries)

/-- `to_txt`: delegates to the journal's own pretty-print capability. -/
def to_txt (j : Journal) : Str := j.pprint_text

/-- What the export pipeline returns or writes.  Aggregated/per-entry
JSON stays at the structured level (`json.dumps` not modelled); every
other output is a plain string. -/
inductive Payload where
  | jsonJournal (x : JsonExport)
  | jsonEntry (d : EntryDict)
  | plain (s : Str)
deriving DecidableEq

/-- The filesystem oracle `export` consults: whether a path is an
existing directory, and whether writing a path fails (`some strerror`;
the raised `IOError`'s `filename` is the path being opened). -/
structure Fs where
  isDir : Str → Bool
  writeErr : Str → Option Str

/-- The keys of `export`'s format map. -/
def validFormats : List Str :=
  [("json").toList, ("txt").toList, ("text").toList, ("md").toList,
    ("markdown").toList]

/-- The aggregated content `maps[format](journal)`. -/
def contentFor (format : Str) (j : Journal) : Payload :=
  if format == ("json").toList then .jsonJournal (to_json j)
  else if format == ("txt").toList || format == ("text").toList then
    .plain (to_txt j)
  else if format == ("md").toList || format == ("markdown").toList then
    .plain (to_md j)
  else .plain []

/-- The unknown-format message of `export`. -/
def formatErrMsg (format : Str) : Str :=
  ("[ERROR: can't export to '").toList ++ format
    ++ ("'. Valid options are 'md', 'txt', and 'json']").toList

/-- Modelled from the spec: `slugify` (the external text utility) — the
title lower-cased with maximal non-alphanumeric runs collapsed to single
separators. -/
def slugAux (sep : Bool) : Str → Str
  | [] => []
  | c :: cs =>
    if c.isAlphanum then c :: slugAux false cs
    else if sep then slugAux true cs
    else '-' :: slugAux true cs

def slugify (t : Str) : Str := slugAux false (t.map Char.toLower)

/-- `write_files`' per-entry filename: the entry's date formatted with
`"%Y-%m-%d_{slug}.{format}"` — note the slug and the raw format string
are spliced into the `strftime` pattern. -/
def write_filename (e : Entry) (format : Str) : Str :=
  strftime e.date ((("%Y-%m-%d_").toList ++ slugify e.title) ++ '.' :: format)

/-- `write_files`' per-entry file content. -/
def writeFileContent (format : Str) (cfg : Config) (e : Entry) : Option Payload :=
  if format == ("json").toList then some (.jsonEntry (Entry.to_dict e))
  else if format == ("md").toList || format == ("markdown").toList then
    some (.plain (Entry.to_md cfg e))
  else if format == ("txt").toList || format == ("text").toList then
    some (.plain (unicode_text cfg e))
  else none

/-- The files `write_files` writes (`os.path.join` modelled as a single
separator). -/
def write_files_writes (j : Journal) (path : Str) (format : Str) :
    List (Str × Payload) :=
  j.entries.filterMap (fun e =>
    (writeFileContent format j.config e).map
      (fun c => (path ++ '/' :: write_filename e format, c)))

/-- `write_files`' confirmation message. -/
def write_files_msg (path : Str) : Str :=
  ("[Journal exported individual files in ").toList ++ path ++ [']']

/-- `export`: format dispatch, destination resolution (`if output and
os.path.isdir(output)`, Python truthiness of the path string), the
single-file write with its caught `IOError`, and the no-output case.
Returns the result string/payload together with the writes performed. -/
def exportJournal (fs : Fs) (j : Journal) (format : Str) (output : Option Str) :
    Payload × List (Str × Payload) :=
  if validFormats.contains format then
    match output with
    | some p =>
      if !p.isEmpty && fs.isDir p then
        (.plain (write_files_msg p), write_files_writes j p format)
      else
        let content := contentFor format j
        if p.isEmpty then (content, [])
        else
          match fs.writeErr p with
          | none =>
            (.plain (("[Journal exported to ").toList ++ p ++ [']']),
              [(p, content)])
          | some err =>
            (.plain (("[ERROR: ").toList ++ p ++ ' ' :: err ++ [']']), [])
    | none => (contentFor format j, [])
  else (.plain (formatErrMsg format), [])

/-! ## Claim theorems -/

/-- C1: Tag extraction searches the lower-cased text
`" " + title + " " + body` and returns, in left-to-right order with
duplicates preserved, exactly the tokens that begin with a configured
prefix symbol, continue with one or more tag-body characters
(word characters or `-+*#/`), and are immediately preceded by a
whitespace character in the space-prepended search text; empty input
yields an empty sequence. -/
theorem c1_tag_extraction (S title body : Str)
    (hS : ∀ s ∈ S, s.isWhitespace = false) :
    parse_tags S title body = tagTokensSpec S (get_fulltext title body)
    ∧ parse_tags S [] [] = [] := by
  refine ⟨findall_eq_tagTokensSpec S hS _, ?_⟩
  have hsp : S.contains ' ' = false := by
    cases hc : S.contains ' ' with
    | false => rfl
    | true => exact absurd (hS ' ' (contains_mem hc)) (by decide)
  have h1 : get_fulltext [] [] = [' ', ' '] := by decide
  rw [parse_tags, h1]
  simp [findall, hsp]

/-- Witness for C1: a concrete symbol set and entry texts. -/
theorem c1_tag_extraction_witness :
    (∀ s ∈ (("@").toList), s.isWhitespace = false)
    ∧ (parse_tags (("@").toList) (("Hi @Work").toList) (("@home ok").toList)
        = tagTokensSpec (("@").toList)
            (get_fulltext (("Hi @Work").toList) (("@home ok").toList))
      ∧ parse_tags (("@").toList) [] [] = []) :=
  ⟨by decide, c1_tag_extraction _ _ _ (by decide)⟩

/-- C4: the canonical write-back text is the formatted date and title,
followed by a star suffix exactly when `starred`, followed by a newline
and the trailing-stripped body exactly when that body is nonempty,
followed by a single trailing newline. -/
theorem c4_write_form (cfg : Config) (e : Entry) :
    unicode_text cfg e =
      strftime e.date cfg.timeformat ++ ' ' :: rstripChars nlsp e.title
        ++ (if e.starred then (" *").toList else [])
        ++ (if (rstripChars nlsp e.body).isEmpty then []
            else '\n' :: rstripChars nlsp e.body)
        ++ ['\n'] := by
  unfold unicode_text
  by_cases hb : (rstripChars nlsp e.body).isEmpty
  · have hbe : rstripChars nlsp e.body = [] := by
      simpa [List.isEmpty_iff] using hb
    cases hst : e.starred <;> simp [hb, hbe]
  · cases hst : e.starred <;> simp [hb]

/-- C6: full pprint includes the body and its separator exactly when the
raw body is longer than 20 characters or holds a character besides space
and newline; a body of exactly `"\n\n  \n"` renders like an empty body;
short pprint is only the date-plus-title line. -/
theorem c6_body_suppression (cfg : Config) (e : Entry) :
    (pprint cfg e true
      = strftime e.date cfg.timeformat ++ ' ' :: rstripChars nlsp e.title)
    ∧ (pprint cfg e false
        = pprint_title cfg e false
          ++ (if has_body e then '\n' :: pprint_body cfg e false else [])
          ++ ['\n'])
    ∧ (has_body e = true
        ↔ 20 < e.body.length ∨ ∃ c ∈ e.body, c ≠ ' ' ∧ c ≠ '\n')
    ∧ (∀ (d : Date) (t : Str) (st : Bool) (tg : List Str) (td : List Todo),
        pprint cfg (Entry.mk d t (("\n\n  \n").toList) st tg td) false
          = pprint cfg (Entry.mk d t [] st tg td) false) := by
  refine ⟨?_, ?_, ?_, ?_⟩
  · simp [pprint, pprint_title]
  · simp [pprint]
  · simp [has_body]
  · intro d t st tg td
    have h1 : has_body
        (Entry.mk d t ['\n', '\n', ' ', ' ', '\n'] st tg td) = false := rfl
    have h2 : has_body (Entry.mk d t [] st tg td) = false := rfl
    simp [pprint, h1, h2, pprint_title]


theorem entriesWithIds_enumFrom (es : List Entry) :
    ∀ n, entriesWithIds n es
      = (es.enumFrom n).map (fun p => EntryDictId.mk (Entry.to_dict p.2) p.1) := by
  induction es with
  | nil => intro n; rfl
  | cons e es ih =>
    intro n
    simp [entriesWithIds, List.enumFrom, ih (n + 1)]

theorem enumFrom_shift_ids (es : List Entry) :
    ∀ k, (es.enumFrom (k + 1)).map
        (fun p => EntryDictId.mk (Entry.to_dict p.2) p.1)
      = (es.enumFrom k).map
        (fun p => EntryDictId.mk (Entry.to_dict p.2) (p.1 + 1)) := by
  induction es with
  | nil => intro k; rfl
  | cons e es ih =>
    intro k
    simp only [List.enumFrom, List.map_cons, ih (k + 1)]

theorem entriesWithIds_enum (es : List Entry) :
    entriesWithIds 1 es
      = es.enum.map (fun p => EntryDictId.mk (Entry.to_dict p.2) (p.1 + 1)) := by
  rw [entriesWithIds_enumFrom es 1]
  exact enumFrom_shift_ids es 0

theorem count_dedup_str (l : List Str) (a : Str) :
    l.dedup.count a = if a ∈ l then 1 else 0 := by
  induction l with
  | nil => simp
  | cons b l ih =>
    by_cases hb : b ∈ l
    · rw [List.dedup_cons_of_mem hb, ih]
      by_cases hab : a = b
      · subst hab; simp [hb]
      · simp [hab]
    · rw [List.dedup_cons_of_not_mem hb, List.count_cons, ih]
      by_cases hab : a = b
      · subst hab; simp [hb]
      · simp [hab]
        exact fun h => hab h.symm

theorem count_entry_tags (t : Str) (es : List Entry) :
    (es.flatMap (fun e => e.tags.dedup)).count t
      = (es.filter (fun e => t ∈ e.tags)).length := by
  induction es with
  | nil => rfl
  | cons e es ih =>
    rw [List.flatMap_cons, List.count_append, count_dedup_str, ih,
      List.filter_cons]
    by_cases h : t ∈ e.tags
    · simp [h]
      omega
    · simp [h]

/-- C2: the JSON export object has exactly the keys `tags` (each tag
mapped to the number of entries containing it at least once, per-entry
duplicates deduplicated), `todos` (dicts of every todo in journal
order), and `entries` (dicts in journal order, the 0-based `i`-th
carrying `id = i + 1`). -/
theorem c2_json_export (j : Journal) :
    (to_json j).todos = (j.entries.flatMap (fun e => e.todos)).map Todo.to_dict
    ∧ (to_json j).entries
        = j.entries.enum.map
            (fun p => EntryDictId.mk (Entry.to_dict p.2) (p.1 + 1))
    ∧ (∀ (t : Str) (c : Nat), ((t, c) ∈ (to_json j).tags
        ↔ (∃ e ∈ j.entries, t ∈ e.tags)
          ∧ c = (j.entries.filter (fun e => t ∈ e.tags)).length)) := by
  refine ⟨rfl, entriesWithIds_enum j.entries, ?_⟩
  intro t c
  simp only [to_json, get_tags_count, List.mem_map, List.mem_dedup,
    Prod.mk.injEq]
  constructor
  · rintro ⟨⟨c2, t2⟩, hp, ht2, hc2⟩
    subst ht2
    subst hc2
    obtain ⟨a, ha, haeq⟩ := hp
    obtain ⟨hac, hat⟩ : a = t2 ∧ (j.entries.flatMap
        (fun e => e.tags.dedup)).count a = c2 := by
      exact ⟨(Prod.mk.injEq .. ▸ haeq).2, (Prod.mk.injEq .. ▸ haeq).1⟩
    subst hac
    constructor
    · obtain ⟨e, he, hmem⟩ := List.mem_flatMap.mp ha
      exact ⟨e, he, List.mem_dedup.mp hmem⟩
    · rw [← hat, count_entry_tags]
  · rintro ⟨⟨e, he, hte⟩, hc⟩
    refine ⟨(c, t), ⟨t, ?_, ?_⟩, rfl, rfl⟩
    · exact List.mem_flatMap.mpr ⟨e, he, List.mem_dedup.mpr hte⟩
    · rw [count_entry_tags t j.entries, hc]

theorem mdItems_eq_spec (cfg : Config) (es : List Entry) :
    ∀ (py pm : Nat), mdItems cfg (py : Int) (pm : Int) es
      = mdItemsSpec cfg (some (py, pm)) es := by
  induction es with
  | nil => intro py pm; rfl
  | cons e es ih =>
    intro py pm
    have hy : ((e.date.year : Int) == (py : Int)) = (e.date.year == py) := by
      simp [beq_iff_eq]
    have hm : ((e.date.month : Int) == (pm : Int)) = (e.date.month == pm) := by
      simp [beq_iff_eq]
    by_cases hyy : e.date.year = py
    · by_cases hmm : e.date.month = pm
      · simp [mdItems, mdItemsSpec, hy, hm, hyy, hmm, ih py pm]
      · simp [mdItems, mdItemsSpec, hy, hm, hyy, hmm, ih py e.date.month]
    · by_cases hmm : e.date.month = pm
      · simp [mdItems, mdItemsSpec, hy, hm, hyy, hmm, ih e.date.year pm]
      · simp [mdItems, mdItemsSpec, hy, hm, hyy, hmm,
          ih e.date.year e.date.month]

theorem to_md_eq_spec (j : Journal) : to_md j = to_md_spec j := by
  unfold to_md to_md_spec
  congr 1
  cases hE : j.entries with
  | nil => rfl
  | cons e es =>
    have hy : ((e.date.year : Int) == (-1 : Int)) = false := by
      simp only [beq_eq_false_iff_ne, ne_eq]
      omega
    have hm : ((e.date.month : Int) == (-1 : Int)) = false := by
      simp only [beq_eq_false_iff_ne, ne_eq]
      omega
    simp [mdItems, mdItemsSpec, hy, hm, mdItems_eq_spec]

/-- C3: in journal order, the Markdown export emits a year heading
(`str(year)` underlined with `=`) exactly when an entry's year differs
from the previous entry's year, and independently a month heading (the
month's full name underlined with `-`) exactly when the month number
differs from the previous entry's, each entry's block following its
headings, all sections joined by single newlines; the three-entry
2023-01-05 / 2023-01-20 / 2023-02-01 example yields one `2023` heading,
one `January` heading before the first two entries, and one `February`
heading before the third. -/
theorem c3_markdown_export :
    (∀ j : Journal, to_md j = to_md_spec j)
    ∧ to_md (Journal.mk
        [Entry.mk (Date.mk 2023 1 5 9 0) (("alpha").toList) [] false [] [],
          Entry.mk (Date.mk 2023 1 20 9 0) (("beta").toList) [] false [] [],
          Entry.mk (Date.mk 2023 2 1 9 0) (("gamma").toList) [] false [] []]
        (Config.mk (("@").toList) (("%Y-%m-%d").toList) 0) [])
      = ("2023\n====\n\nJanuary\n-------\n\n### 2023-01-05, alpha  \n\n### 2023-01-20, beta  \n\nFebruary\n--------\n\n### 2023-02-01, gamma  \n").toList := by
  constructor
  · exact to_md_eq_spec
  · decide

/-- C10 (implicit): a journal whose entries collectively yield no tags
makes the tag listing return exactly its sentinel string, and one with
no todos makes the todo listing return exactly its sentinel string. -/
theorem c10_empty_sentinels (j : Journal) :
    ((∀ e ∈ j.entries, e.tags = []) →
      to_tag_list j = ("[No tags found in journal.]").toList)
    ∧ ((∀ e ∈ j.entries, e.todos = []) →
      to_todo_list j = ("[No todos found in journal.]").toList) := by
  constructor
  · intro h
    have h1 : j.entries.flatMap (fun e => e.tags.dedup) = [] := by
      simp only [List.flatMap_eq_nil_iff]
      intro e he
      simp [h e he]
    have h2 : get_tags_count j = [] := by
      simp [get_tags_count, h1]
    simp [to_tag_list, h2]
  · intro h
    have h1 : get_todos j = [] := by
      simp only [get_todos, List.flatMap_eq_nil_iff]
      exact h
    simp [to_todo_list, h1]

/-- Witness for C10: a journal with one entry carrying no tags and no
todos. -/
theorem c10_empty_sentinels_witness :
    (∀ e ∈ (Journal.mk
        [Entry.mk (Date.mk 2023 3 1 8 0) (("note").toList) [] false [] []]
        (Config.mk (("@").toList) (("%Y-%m-%d").toList) 0) []).entries,
      e.tags = [] ∧ e.todos = [])
    ∧ to_tag_list (Journal.mk
        [Entry.mk (Date.mk 2023 3 1 8 0) (("note").toList) [] false [] []]
        (Config.mk (("@").toList) (("%Y-%m-%d").toList) 0) [])
      = ("[No tags found in journal.]").toList
    ∧ to_todo_list (Journal.mk
        [Entry.mk (Date.mk 2023 3 1 8 0) (("note").toList) [] false [] []]
        (Config.mk (("@").toList) (("%Y-%m-%d").toList) 0) [])
      = ("[No todos found in journal.]").toList :=
  ⟨by decide,
    (c10_empty_sentinels _).1 (by decide),
    (c10_empty_sentinels _).2 (by decide)⟩

/-- C8: for any format outside the five supported names, export returns
(never raises) the error-shaped message, which names the invalid format
and lists the valid options. -/
theorem c8_unknown_format (fs : Fs) (j : Journal) (format : Str)
    (out : Option Str) (h : format ∉ validFormats) :
    exportJournal fs j format out = (.plain (formatErrMsg format), [])
    ∧ List.IsInfix format (formatErrMsg format)
    ∧ List.IsInfix (("'md'").toList) (formatErrMsg format)
    ∧ List.IsInfix (("'txt'").toList) (formatErrMsg format)
    ∧ List.IsInfix (("'json'").toList) (formatErrMsg format) := by
  have hc : validFormats.contains format = false := by simpa using h
  refine ⟨by simp [exportJournal, hc, h], ?_, ?_, ?_, ?_⟩
  · exact ⟨("[ERROR: can't export to '").toList,
      ("'. Valid options are 'md', 'txt', and 'json']").toList, rfl⟩
  · refine ⟨("[ERROR: can't export to '").toList ++ format
        ++ ("'. Valid options are ").toList,
      (", 'txt', and 'json']").toList, ?_⟩
    simp only [formatErrMsg, List.append_assoc]
    congr 1
  · refine ⟨("[ERROR: can't export to '").toList ++ format
        ++ ("'. Valid options are 'md', ").toList,
      (", and 'json']").toList, ?_⟩
    simp only [formatErrMsg, List.append_assoc]
    congr 1
  · refine ⟨("[ERROR: can't export to '").toList ++ format
        ++ ("'. Valid options are 'md', 'txt', and ").toList,
      ("]").toList, ?_⟩
    simp only [formatErrMsg, List.append_assoc]
    congr 1

/-- Witness for C8: format `"pdf"` yields the error message, which
contains `"pdf"`. -/
theorem c8_unknown_format_witness :
    ((("pdf").toList) ∉ validFormats)
    ∧ (exportJournal (Fs.mk (fun _ => false) (fun _ => none))
        (Journal.mk [] (Config.mk (("@").toList) (("%Y-%m-%d").toList) 0) [])
        (("pdf").toList) none
      = (.plain (formatErrMsg (("pdf").toList)), [])
      ∧ List.IsInfix (("pdf").toList) (formatErrMsg (("pdf").toList))
      ∧ List.IsInfix (("'md'").toList) (formatErrMsg (("pdf").toList))
      ∧ List.IsInfix (("'txt'").toList) (formatErrMsg (("pdf").toList))
      ∧ List.IsInfix (("'json'").toList) (formatErrMsg (("pdf").toList))) :=
  ⟨by decide, c8_unknown_format _ _ _ _ (by decide)⟩

/-- C9: for a valid format, a given non-directory output path receives
the aggregated content as a single write and yields a confirmation; an
I/O failure is returned (not propagated) as an error message holding the
failing path and the OS error text; with no output path the aggregated
content itself is returned. -/
theorem c9_single_file (fs : Fs) (j : Journal) (format : Str) (p : Str)
    (hfmt : format ∈ validFormats) (hp : p ≠ []) (hdir : fs.isDir p = false) :
    (fs.writeErr p = none →
      exportJournal fs j format (some p)
        = (.plain (("[Journal exported to ").toList ++ p ++ [']']),
            [(p, contentFor format j)]))
    ∧ (∀ err, fs.writeErr p = some err →
        exportJournal fs j format (some p)
          = (.plain (("[ERROR: ").toList ++ p ++ ' ' :: err ++ [']']), [])
        ∧ List.IsInfix p (("[ERROR: ").toList ++ p ++ ' ' :: err ++ [']'])
        ∧ List.IsInfix err (("[ERROR: ").toList ++ p ++ ' ' :: err ++ [']']))
    ∧ exportJournal fs j format none = (contentFor format j, []) := by
  have hc : validFormats.contains format = true := by simpa using hfmt
  refine ⟨?_, ?_, ?_⟩
  · intro hw
    simp [exportJournal, hc, hfmt, hp, hdir, hw]
  · intro err hw
    refine ⟨by simp [exportJournal, hc, hfmt, hp, hdir, hw], ?_, ?_⟩
    · exact ⟨("[ERROR: ").toList, ' ' :: err ++ [']'], by simp⟩
    · refine ⟨("[ERROR: ").toList ++ p ++ [' '], [']'], ?_⟩
      simp only [List.append_assoc]
      congr 1
  · simp [exportJournal, hc, hfmt]

/-- Witness for C9: a concrete journal exported as `txt` against a
filesystem whose write succeeds, one whose write fails, and with no
output path. -/
theorem c9_single_file_witness :
    ((("txt").toList ∈ validFormats)
      ∧ ("out.txt").toList ≠ ([] : Str)
      ∧ (Fs.mk (fun _ => false) (fun _ => none)).isDir (("out.txt").toList)
          = false)
    ∧ exportJournal (Fs.mk (fun _ => false) (fun _ => none))
        (Journal.mk [] (Config.mk (("@").toList) (("%Y-%m-%d").toList) 0)
          (("journal text").toList))
        (("txt").toList) (some (("out.txt").toList))
      = (.plain (("[Journal exported to ").toList ++ ("out.txt").toList
            ++ [']']),
          [(("out.txt").toList,
            contentFor (("txt").toList)
              (Journal.mk [] (Config.mk (("@").toList) (("%Y-%m-%d").toList) 0)
                (("journal text").toList)))]) :=
  ⟨⟨by decide, by decide, rfl⟩,
    (c9_single_file (Fs.mk (fun _ => false) (fun _ => none))
      (Journal.mk [] (Config.mk (("@").toList) (("%Y-%m-%d").toList) 0)
        (("journal text").toList))
      (("txt").toList) (("out.txt").toList)
      (by decide) (by decide) rfl).1 rfl⟩

theorem strftime_pass (d : Date) : ∀ (s : Str), (∀ c ∈ s, c ≠ '%') →
    strftime d s = s := by
  intro s
  induction s with
  | nil => intro _; rfl
  | cons c cs ih =>
    intro h
    have hc : c ≠ '%' := h c (by simp)
    cases cs with
    | nil => simp [strftime, hc]
    | cons c2 cs2 =>
      simp [strftime, hc, ih (fun x hx => h x (by simp [hx]))]

theorem strftime_ymd (d : Date) (r : Str) :
    strftime d (("%Y-%m-%d_").toList ++ r)
      = padNum 4 d.year ++ '-' :: padNum 2 d.month ++ '-' :: padNum 2 d.day
        ++ '_' :: strftime d r := by
  show strftime d
      ('%' :: 'Y' :: '-' :: '%' :: 'm' :: '-' :: '%' :: 'd' :: '_' :: r) = _
  simp [strftime]

theorem slugAux_no_percent : ∀ (b : Bool) (s : Str) (c : Char),
    c ∈ slugAux b s → c ≠ '%' := by
  intro b s
  induction s generalizing b with
  | nil => intro c hc; simp [slugAux] at hc
  | cons a as ih =>
    intro c hc
    by_cases ha : a.isAlphanum
    · simp [slugAux, ha] at hc
      rcases hc with rfl | hc
      · intro hp
        rw [hp] at ha
        exact absurd ha (by decide)
      · exact ih false c hc
    · by_cases hb : b
      · simp [slugAux, ha, hb] at hc
        exact ih true c hc
      · simp [slugAux, ha, hb] at hc
        rcases hc with rfl | hc
        · decide
        · exact ih true c hc

theorem slugify_no_percent (t : Str) (c : Char) (h : c ∈ slugify t) :
    c ≠ '%' :=
  slugAux_no_percent false _ c h

/-- Counterexample to C7 as stated: with format `"markdown"` the
per-entry filename carries the raw format string as its extension,
`.markdown`, not the claimed `.md`. -/
theorem c7_extension_counterexample :
    write_filename
        (Entry.mk (Date.mk 2023 1 5 10 0) (("Hello").toList) [] false [] [])
        (("markdown").toList)
      = ("2023-01-05_hello.markdown").toList
    ∧ write_filename
        (Entry.mk (Date.mk 2023 1 5 10 0) (("Hello").toList) [] false [] [])
        (("markdown").toList)
      ≠ ("2023-01-05_hello.md").toList := by
  constructor
  · decide
  · decide

/-- C7 (amended): the per-entry filename is
`<YYYY-MM-DD>_<slugified-title>.<format>` with the raw format string as
the extension (so `md` gives `.md` but `markdown` gives `.markdown`,
`text` gives `.text`); the content is the entry's JSON structured view
for `json`, its Markdown block for `md`/`markdown`, and its canonical
write-form text for `txt`/`text`; the confirmation message names the
directory. -/
theorem c7_per_entry_files (cfg : Config) (e : Entry) (p : Str) :
    (∀ format, format ∈ validFormats →
      write_filename e format
        = padNum 4 e.date.year ++ '-' :: padNum 2 e.date.month
          ++ '-' :: padNum 2 e.date.day ++ '_' :: slugify e.title
          ++ '.' :: format)
    ∧ writeFileContent (("json").toList) cfg e
        = some (.jsonEntry (Entry.to_dict e))
    ∧ writeFileContent (("md").toList) cfg e
        = some (.plain (Entry.to_md cfg e))
    ∧ writeFileContent (("markdown").toList) cfg e
        = some (.plain (Entry.to_md cfg e))
    ∧ writeFileContent (("txt").toList) cfg e
        = some (.plain (unicode_text cfg e))
    ∧ writeFileContent (("text").toList) cfg e
        = some (.plain (unicode_text cfg e))
    ∧ List.IsInfix p (write_files_msg p) := by
  refine ⟨?_, rfl, rfl, rfl, rfl, rfl,
    ⟨("[Journal exported individual files in ").toList, [']'], rfl⟩⟩
  intro format hf
  have hfp : ∀ x ∈ format, x ≠ '%' := by
    simp only [validFormats, List.mem_cons, List.not_mem_nil, or_false] at hf
    rcases hf with rfl | rfl | rfl | rfl | rfl <;> decide
  have hnp : ∀ c ∈ slugify e.title ++ '.' :: format, c ≠ '%' := by
    intro c hc
    rcases List.mem_append.mp hc with h1 | h1
    · exact slugify_no_percent _ _ h1
    · have h2 : c = '.' ∨ c ∈ format := by simpa using h1
      rcases h2 with rfl | h3
      · decide
      · exact hfp c h3
  show strftime e.date ((("%Y-%m-%d_").toList ++ slugify e.title)
      ++ '.' :: format) = _
  rw [List.append_assoc, strftime_ymd, strftime_pass _ _ hnp]
  simp

/-- Witness for the amended C7: format `"md"` on a concrete entry. -/
theorem c7_per_entry_files_witness :
    ((("md").toList) ∈ validFormats)
    ∧ write_filename
        (Entry.mk (Date.mk 2024 12 31 23 59) (("My Day!").toList) [] true [] [])
        (("md").toList)
      = padNum 4 2024 ++ '-' :: padNum 2 12 ++ '-' :: padNum 2 31
        ++ '_' :: slugify (("My Day!").toList) ++ '.' :: ("md").toList :=
  ⟨by decide,
    (c7_per_entry_files
      (Config.mk (("@").toList) (("%Y-%m-%d").toList) 0)
      (Entry.mk (Date.mk 2024 12 31 23 59) (("My Day!").toList) [] true [] [])
      []).1 (("md").toList) (by decide)⟩

theorem takeChunks_chunkLen (avail : Nat) :
    ∀ (acc : Nat) (l : List Str), acc ≤ avail →
      acc + chunkLen (takeChunks avail acc l).1 ≤ avail := by
  intro acc l
  induction l generalizing acc with
  | nil => intro h; simpa [takeChunks, chunkLen] using h
  | cons c cs ih =>
    intro h
    by_cases hc : acc + c.length ≤ avail
    · have := ih (acc + c.length) hc
      simp [takeChunks, hc, chunkLen] at this ⊢
      omega
    · simpa [takeChunks, hc, chunkLen] using h

theorem splitChunks_flatten (s : Str) : (splitChunks s).flatten = s := by
  induction s using splitChunks.induct with
  | case1 => simp [splitChunks]
  | case2 c cs ih =>
    rw [splitChunks]
    simp only [List.flatten_cons, ih, List.cons_append]
    rw [List.takeWhile_append_dropWhile]

theorem chunkLen_dropTrailingWs : ∀ (L : List Str),
    chunkLen (dropTrailingWs L) ≤ chunkLen L := by
  intro L
  induction L with
  | nil => simp [dropTrailingWs]
  | cons c cs ih =>
    cases cs with
    | nil =>
      by_cases hw : isWsChunk c
      · simp [dropTrailingWs, hw, chunkLen]
      · simp [dropTrailingWs, hw]
    | cons d ds =>
      have h1 : dropTrailingWs (c :: d :: ds) = c :: dropTrailingWs (d :: ds) :=
        rfl
      rw [h1]
      simp only [chunkLen, List.map_cons, List.sum_cons] at ih ⊢
      omega

theorem wrapAux_flatten_aux (avail : Nat) :
    ∀ (n : Nat) (first : Bool) (chunks : List Str),
      chunkLen chunks + chunks.length ≤ n →
      (wrapAux false avail first chunks).flatten = chunks.flatten := by
  intro n
  induction n with
  | zero =>
    intro first chunks h
    cases chunks with
    | nil => simp [wrapAux]
    | cons c cs => simp [chunkLen] at h
  | succ n ih =>
    intro first chunks h
    cases chunks with
    | nil => simp [wrapAux]
    | cons c cs =>
      by_cases hcl : c.length ≤ avail
      · have hap := takeChunks_append avail c.length cs
        have h1 : chunkLen ((takeChunks avail c.length cs).1)
            + chunkLen ((takeChunks avail c.length cs).2) = chunkLen cs := by
          rw [← chunkLen_append, hap]
        have h2 : ((takeChunks avail c.length cs).1).length
            + ((takeChunks avail c.length cs).2).length = cs.length := by
          rw [← List.length_append, hap]
        have hm : chunkLen (takeChunks avail c.length cs).2
            + ((takeChunks avail c.length cs).2).length ≤ n := by
          simp [chunkLen] at h h1 h2 ⊢
          omega
        rw [wrapAux]
        simp only [Bool.false_and, if_neg, hcl, if_pos, Bool.false_eq_true,
          not_false_iff, List.isEmpty_cons, List.flatten_append,
          List.flatten_cons, List.flatten_nil]
        rw [ih false _ hm]
        rw [List.append_nil, List.append_assoc, ← List.flatten_append, hap]
      · have hc1 : 0 < c.length := by omega
        rw [wrapAux]
        simp only [Bool.false_and, if_neg, hcl, if_pos, Bool.false_eq_true,
          not_false_iff, List.flatten_append, List.flatten_cons,
          List.flatten_nil]
        by_cases hde : (c.drop (max 1 avail)).isEmpty
        · have hdrop : c.drop (max 1 avail) = [] := by
            simpa using hde
          have htake : c.take (max 1 avail) = c := by
            have := List.take_append_drop (max 1 avail) c
            rw [hdrop, List.append_nil] at this
            exact this
          have hm : chunkLen cs + cs.length ≤ n := by
            simp [chunkLen] at h ⊢
            omega
          simp only [hde, if_pos]
          rw [ih false _ hm, htake]
          simp
        · have hlt : max 1 avail < c.length := by
            by_contra hle2
            exact hde (by simp [List.drop_eq_nil_iff]; omega)
          have hm : chunkLen (c.drop (max 1 avail) :: cs)
              + (c.drop (max 1 avail) :: cs).length ≤ n := by
            simp [chunkLen] at h ⊢
            omega
          simp only [hde, if_neg, Bool.false_eq_true, not_false_iff]
          rw [ih false _ hm]
          simp only [List.flatten_cons, List.append_nil]
          rw [← List.append_assoc]
          rw [List.take_append_drop]

theorem flatten_length_chunk (L : List Str) :
    (L.flatten).length = chunkLen L := by
  simp [List.length_flatten, chunkLen]

theorem wrapAux_line_length (avail : Nat) (dropWs : Bool) :
    ∀ (n : Nat) (first : Bool) (chunks : List Str),
      chunkLen chunks + chunks.length ≤ n →
      ∀ l ∈ wrapAux dropWs avail first chunks, l.length ≤ max avail 1 := by
  intro n
  induction n with
  | zero =>
    intro first chunks h l hl
    cases chunks with
    | nil => simp [wrapAux] at hl
    | cons c cs => simp [chunkLen] at h
  | succ n ih =>
    intro first chunks h l hl
    cases chunks with
    | nil => simp [wrapAux] at hl
    | cons c cs =>
      rw [wrapAux] at hl
      by_cases hws : (dropWs && !first && isWsChunk c) = true
      · rw [if_pos hws] at hl
        have hm : chunkLen cs + cs.length ≤ n := by
          simp [chunkLen] at h ⊢
          omega
        exact ih first cs hm l hl
      · rw [if_neg hws] at hl
        by_cases hcl : c.length ≤ avail
        · rw [if_pos hcl] at hl
          have hap := takeChunks_append avail c.length cs
          have h1 : chunkLen ((takeChunks avail c.length cs).1)
              + chunkLen ((takeChunks avail c.length cs).2) = chunkLen cs := by
            rw [← chunkLen_append, hap]
          have h2 : ((takeChunks avail c.length cs).1).length
              + ((takeChunks avail c.length cs).2).length = cs.length := by
            rw [← List.length_append, hap]
          have hm : chunkLen (takeChunks avail c.length cs).2
              + ((takeChunks avail c.length cs).2).length ≤ n := by
            simp [chunkLen] at h h1 h2 ⊢
            omega
          rcases List.mem_append.mp hl with hh | hh
          · have hbound : chunkLen (c :: (takeChunks avail c.length cs).1)
                ≤ avail := by
              have := takeChunks_chunkLen avail c.length cs hcl
              simp [chunkLen] at this ⊢
              omega
            by_cases hLE : (if dropWs then
                dropTrailingWs (c :: (takeChunks avail c.length cs).1)
              else c :: (takeChunks avail c.length cs).1).isEmpty
            · rw [if_pos hLE] at hh
              simp at hh
            · rw [if_neg hLE] at hh
              have hleq : l = (if dropWs then
                  dropTrailingWs (c :: (takeChunks avail c.length cs).1)
                else c :: (takeChunks avail c.length cs).1).flatten := by
                simpa using hh
              subst hleq
              rw [flatten_length_chunk]
              have hfin : chunkLen (if dropWs then
                  dropTrailingWs (c :: (takeChunks avail c.length cs).1)
                else c :: (takeChunks avail c.length cs).1) ≤ avail := by
                by_cases hd : dropWs
                · rw [if_pos hd]
                  exact le_trans (chunkLen_dropTrailingWs _) hbound
                · rw [if_neg hd]
                  exact hbound
              omega
          · exact ih false _ hm l hh
        · rw [if_neg hcl] at hl
          have hc1 : 0 < c.length := by omega
          rcases List.mem_append.mp hl with hh | hh
          · by_cases hkeep : (dropWs && isWsChunk (c.take (max 1 avail))) = true
            · rw [if_pos hkeep] at hh
              simp at hh
            · rw [if_neg hkeep] at hh
              have hleq : l = c.take (max 1 avail) := by simpa using hh
              subst hleq
              have := List.length_take (max 1 avail) c
              simp at this ⊢
              omega
          · by_cases hde : (c.drop (max 1 avail)).isEmpty
            · rw [if_pos hde] at hh
              have hm : chunkLen cs + cs.length ≤ n := by
                simp [chunkLen] at h ⊢
                omega
              exact ih false cs hm l hh
            · rw [if_neg hde] at hh
              have hlt : max 1 avail < c.length := by
                by_contra hle2
                exact hde (by simp [List.drop_eq_nil_iff]; omega)
              have hm : chunkLen (c.drop (max 1 avail) :: cs)
                  + (c.drop (max 1 avail) :: cs).length ≤ n := by
                simp [chunkLen] at h ⊢
                omega
              exact ih false _ hm l hh

theorem wrapAux_flatten (avail : Nat) (first : Bool) (chunks : List Str) :
    (wrapAux false avail first chunks).flatten = chunks.flatten :=
  wrapAux_flatten_aux avail (chunkLen chunks + chunks.length) first chunks
    le_rfl

theorem fillLines_indent (w : Nat) (ind : Str) (dropWs : Bool) (text : Str) :
    ∀ l ∈ fillLines w ind dropWs text, l.take ind.length = ind := by
  intro l hl
  obtain ⟨x, _, rfl⟩ := List.mem_map.mp hl
  exact List.take_left ind x

theorem fillLines_no_collapse (w : Nat) (ind : Str) (text : Str) :
    ((fillLines w ind false text).map (fun l => l.drop ind.length)).flatten
      = normalizeText text := by
  unfold fillLines
  rw [List.map_map]
  have hid : ((fun l => List.drop ind.length l) ∘ (fun l => ind ++ l))
      = fun l : Str => l := by
    funext x
    simp [List.drop_left]
  rw [hid, List.map_id']
  rw [wrapAux_flatten]
  exact splitChunks_flatten _

theorem fillLines_width (w : Nat) (dropWs : Bool) (text : Str) (h : 0 < w) :
    ∀ l ∈ fillLines w [] dropWs text, l.length ≤ w := by
  intro l hl
  obtain ⟨x, hx, rfl⟩ := List.mem_map.mp hl
  have hb := wrapAux_line_length (w - List.length ([] : Str)) dropWs
    (chunkLen (splitChunks (normalizeText text))
      + (splitChunks (normalizeText text)).length) true _ le_rfl x hx
  simp at hb ⊢
  omega

/-- C5: with `short = false` and a positive configured linewrap, pprint
wraps the title to the configured width and wraps each line of the
trailing-stripped body individually (lines split first, never joined),
prefixes every wrapped line (first and continuation) with `"| "`, never
collapses whitespace runs (stripping the prefixes and line breaks
recovers the normalised line text exactly), and renders an empty body
line as a single space before wrapping so its `"| "` prefix still
appears. -/
theorem c5_pprint_wrapping (cfg : Config) (e : Entry)
    (h : 0 < cfg.linewrap) :
    (pprint cfg e false
      = fill cfg.linewrap [] true
          (strftime e.date cfg.timeformat ++ ' ' :: e.title)
        ++ (if has_body e then
            '\n' :: List.intercalate ['\n']
              ((splitlines (rstripChars nlsp e.body)).map
                (fun line => fill cfg.linewrap (("| ").toList) false
                  (if line.isEmpty then line ++ [' '] else line)))
          else []) ++ ['\n'])
    ∧ (∀ line ∈ splitlines (rstripChars nlsp e.body),
        ∀ l ∈ fillLines cfg.linewrap (("| ").toList) false
            (if line.isEmpty then line ++ [' '] else line),
          l.take 2 = ("| ").toList)
    ∧ (∀ line ∈ splitlines (rstripChars nlsp e.body),
        ((fillLines cfg.linewrap (("| ").toList) false
            (if line.isEmpty then line ++ [' '] else line)).map
          (fun l => l.drop 2)).flatten
          = normalizeText (if line.isEmpty then line ++ [' '] else line))
    ∧ (∀ l ∈ fillLines cfg.linewrap [] true
          (strftime e.date cfg.timeformat ++ ' ' :: e.title),
        l.length ≤ cfg.linewrap) := by
  have h0 : (cfg.linewrap == 0) = false := by
    simp
    omega
  refine ⟨?_, ?_, ?_, ?_⟩
  · simp [pprint, pprint_title, pprint_body, h0]
  · intro line _ l hl
    exact fillLines_indent cfg.linewrap (("| ").toList) false _ l hl
  · intro line _
    exact fillLines_no_collapse cfg.linewrap (("| ").toList) _
  · exact fillLines_width cfg.linewrap true _ h

/-- Witness for C5: a concrete config with linewrap 10 and a concrete
entry. -/
theorem c5_pprint_wrapping_witness :
    (0 < 10)
    ∧ (∀ l ∈ fillLines 10 [] true
        (strftime (Date.mk 2023 5 2 7 45) (("%Y-%m-%d").toList)
          ++ ' ' :: ("A walk in the park").toList),
        l.length ≤ 10) :=
  ⟨by decide,
    (c5_pprint_wrapping
      (Config.mk (("@").toList) (("%Y-%m-%d").toList) 10)
      (Entry.mk (Date.mk 2023 5 2 7 45) (("A walk in the park").toList)
        (("Sunny.\n\nWindy later.").toList) false [] [])
      (by decide)).2.2.2⟩
